import Mathlib

/-!
Verification of the igraph string vector (`igraph_strvector_t`,
`src/unnamed/part_000`, lines 85-612).

Modelling conventions (shallow embedding of the C code):

* A heap string buffer (the target of one `char *` slot) is a `List Nat` of
  bytes, with the terminating zero byte included, exactly as allocated.
* One entry of the `char **` slot array is a `Slot`: `live b` is a non-null
  pointer to an owned buffer `b`; `null` is a NULL pointer; `dangling` is a
  freed-but-not-cleared pointer; `uninit` is storage freshly exposed by a
  growing `realloc`, never yet assigned.
* `StrVec` holds the allocation contents (`stor`, one entry per allocated
  slot), `cap` (the pointer offset `stor_end - stor_begin`) and `len`
  (the pointer offset `end - stor_begin`, the logical size).  The fields
  `cap` and `stor.length` normally agree, but `igraph_strvector_permdelete`
  can make them differ, exactly as the C code can make `stor_end` disagree
  with the true allocation size.
* Fallible functions return `SVRes`: `ok v` models `IGRAPH_SUCCESS` with the
  resulting state, `err e v` models `IGRAPH_ERROR(e)` together with the state
  the receiver is left in, and `ub` marks a point where the C code's behavior
  is undefined (access outside the allocation, double free, use of freed or
  never-assigned memory).  Computations that the C performs on defined memory
  are modelled exactly; nothing is invented past the first undefined access.
* Allocation-failure injection: every function carries one parameter per
  internal allocation call site (`Bool` for a single site, `Option Nat` for a
  site inside a loop, giving the loop iteration at which that allocation
  fails).  `true` / `none` means the allocation succeeds.
-/

/-- Bytes of one heap string buffer, terminator included. -/
abbrev Buf := List Nat

/-- One entry of the `char **` slot array. -/
inductive Slot where
  | live : Buf → Slot
  | null : Slot
  | dangling : Slot
  | uninit : Slot
deriving Repr, DecidableEq

/-- The `igraph_strvector_t` struct: `stor` is the allocation behind
`stor_begin`, `cap = stor_end - stor_begin`, `len = end - stor_begin`. -/
structure StrVec where
  stor : List Slot
  cap : Nat
  len : Nat
deriving Repr, DecidableEq

/-- igraph error codes used by this file. -/
inductive Err where
  | enomem : Err
  | einval : Err
  | eoverflow : Err
deriving Repr, DecidableEq

/-- Result of a fallible strvector operation. -/
inductive SVRes where
  | ok : StrVec → SVRes
  | err : Err → StrVec → SVRes
  | ub : SVRes
deriving Repr, DecidableEq

/-- The bytes of a buffer up to (excluding) the first zero byte: the C string
content that `strlen` / `strcpy` / `strdup` see. -/
def cstrTake : Buf → Buf
  | [] => []
  | b :: bs => if b = 0 then [] else b :: cstrTake bs

/-- The buffer produced by `IGRAPH_CALLOC(1, char)`: one zero byte. -/
def emptyBuf : Buf := [0]

/-- `IGRAPH_INTEGER_MAX` for a 64-bit `igraph_integer_t`. -/
def IGRAPH_INTEGER_MAX : Nat := 2 ^ 63 - 1

/-- Free the `n` slots starting at index `a`: `live` becomes `null`
(`IGRAPH_FREE` also clears the pointer), `null` stays `null` (`free(NULL)` is
a no-op, and the call sites that guard with `!= 0` skip it with the same net
effect), freeing a `dangling` pointer is a double free and freeing or testing
an `uninit` pointer reads indeterminate memory — both undefined. -/
def freeN : List Slot → Nat → Nat → Option (List Slot)
  | l, _, 0 => some l
  | l, a, n + 1 =>
    match l[a]? with
    | some (Slot.live _) => freeN (l.set a Slot.null) (a + 1) n
    | some Slot.null => freeN l (a + 1) n
    | _ => none

/-- `igraph_strvector_size`: `sv->end - sv->stor_begin`. -/
def igraph_strvector_size (v : StrVec) : Nat := v.len

/-- `igraph_strvector_get`: asserts the slot pointer is non-null and returns
it.  Reading outside the allocation, or a dangling / never-assigned pointer,
has no defined value. -/
def igraph_strvector_get (v : StrVec) (idx : Nat) : Option Buf :=
  match v.stor[idx]? with
  | some (Slot.live b) => some b
  | _ => none

/-- The per-slot loop of `igraph_strvector_init`: slot `i` receives
`IGRAPH_CALLOC(1, char)`; on failure the NULL result is stored into the slot
and the loop stops with the failure flag set. -/
def initLoop (failSlot : Option Nat) : List Slot → Nat → Nat → Option (Bool × List Slot)
  | l, _, 0 => some (true, l)
  | l, i, n + 1 =>
    if i < l.length then
      if failSlot = some i then some (false, l.set i Slot.null)
      else initLoop failSlot (l.set i (Slot.live emptyBuf)) (i + 1) n
    else none

/-- Result of `igraph_strvector_init`.  On a per-slot allocation failure the
code calls `igraph_strvector_destroy`, whose loop walks `stor_begin` up to
`sv->end` — but `sv->end` has not been assigned yet in this call, so the walk
length is whatever stale value the field holds; `errSlots` returns the slot
array contents at the moment the array itself is freed. -/
inductive InitRes where
  | ok : StrVec → InitRes
  | errArray : InitRes
  | errSlots : List Slot → InitRes
  | ub : InitRes
deriving Repr, DecidableEq

/-- `igraph_strvector_init`.  `staleEndOff` is the indeterminate value of
`sv->end - sv->stor_begin` seen by the premature `igraph_strvector_destroy`
call on the partial-failure path (the field is only assigned after the
loop). -/
def igraph_strvector_init (size : Nat) (arrayAllocOK : Bool) (failSlot : Option Nat)
    (staleEndOff : Nat) : InitRes :=
  if arrayAllocOK = false then InitRes.errArray
  else
    match initLoop failSlot (List.replicate size Slot.null) 0 size with
    | none => InitRes.ub
    | some (true, l) => InitRes.ok { stor := l, cap := size, len := size }
    | some (false, l) =>
      match freeN l 0 staleEndOff with
      | none => InitRes.ub
      | some l2 => InitRes.errSlots l2

/-- `igraph_strvector_set` (null-terminated form).  Note: the source performs
no bounds check here at all; accessing a slot outside the allocation, or one
holding a freed or never-assigned pointer, is undefined.  On allocation
failure the slot's prior content is untouched. -/
def igraph_strvector_set (v : StrVec) (idx : Nat) (value : Buf) (allocOK : Bool) : SVRes :=
  match v.stor[idx]? with
  | some (Slot.live _) =>
    if allocOK then SVRes.ok { v with stor := v.stor.set idx (Slot.live (cstrTake value ++ [0])) }
    else SVRes.err Err.enomem v
  | some Slot.null =>
    if allocOK then SVRes.ok { v with stor := v.stor.set idx (Slot.live (cstrTake value ++ [0])) }
    else SVRes.err Err.enomem v
  | _ => SVRes.ub

/-- `igraph_strvector_set2` (explicit-length form).  The bounds check in the
source compares `idx` against `stor_end - stor_begin` — the capacity, not the
logical size.  `s` is the sequence of bytes `memcpy` copies (`len` bytes);
the stored buffer is `s` plus a terminating zero. -/
def igraph_strvector_set2 (v : StrVec) (idx : Nat) (s : Buf) (allocOK : Bool) : SVRes :=
  if v.cap ≤ idx then SVRes.err Err.einval v
  else
    match v.stor[idx]? with
    | some (Slot.live _) =>
      if allocOK then SVRes.ok { v with stor := v.stor.set idx (Slot.live (s ++ [0])) }
      else SVRes.err Err.enomem v
    | some Slot.null =>
      if allocOK then SVRes.ok { v with stor := v.stor.set idx (Slot.live (s ++ [0])) }
      else SVRes.err Err.enomem v
    | _ => SVRes.ub

/-- The shift loop of `igraph_strvector_remove_section`:
`for (p = stor_begin; p < end - to; p++) p[from] = p[to];`, i.e. for
`k = 0 .. (len - to) - 1`, slot `frm + k` receives the pointer in slot
`to + k`. -/
def shiftLoop (frm dst : Nat) : List Slot → Nat → Nat → Option (List Slot)
  | l, _, 0 => some l
  | l, k, n + 1 =>
    match l[dst + k]? with
    | none => none
    | some s =>
      if frm + k < l.length then shiftLoop frm dst (l.set (frm + k) s) (k + 1) n
      else none

/-- `igraph_strvector_remove_section`: free slots `[frm, to)`, shift the
pointers at `[to, len)` down by `to - frm`, decrement `end`. -/
def igraph_strvector_remove_section (v : StrVec) (frm dst : Nat) : Option StrVec :=
  match freeN v.stor frm (dst - frm) with
  | none => none
  | some l =>
    match shiftLoop frm dst l 0 (v.len - dst) with
    | none => none
    | some l2 => some { v with stor := l2, len := v.len - (dst - frm) }

/-- `igraph_strvector_remove`: remove_section of `[elem, elem + 1)`. -/
def igraph_strvector_remove (v : StrVec) (elem : Nat) : Option StrVec :=
  igraph_strvector_remove_section v elem (elem + 1)

/-- The copy loop of `igraph_strvector_move_interval`: for ascending `i`,
a non-null source slot `bgn + i` has its C string duplicated into slot
`to + i`; a null source slot writes nothing.  The unchecked `IGRAPH_CALLOC`
is modelled as succeeding.  Reading a freed or never-assigned source pointer
is undefined. -/
def miCopy (bgn dst : Nat) : List Slot → Nat → Nat → Option (List Slot)
  | l, _, 0 => some l
  | l, i, n + 1 =>
    match l[bgn + i]? with
    | some (Slot.live b) =>
      if dst + i < l.length then
        miCopy bgn dst (l.set (dst + i) (Slot.live (cstrTake b ++ [0]))) (i + 1) n
      else none
    | some Slot.null => miCopy bgn dst l (i + 1) n
    | _ => none

/-- `igraph_strvector_move_interval`: free the destination slots
`[to, to + (en - bgn))`, then copy each non-null source slot of
`[bgn, en)` into the destination, in ascending order. -/
def igraph_strvector_move_interval (v : StrVec) (bgn en dst : Nat) : Option StrVec :=
  match freeN v.stor dst (en - bgn) with
  | none => none
  | some l =>
    match miCopy bgn dst l 0 (en - bgn) with
    | none => none
    | some l2 => some { v with stor := l2 }

/-- The cleanup loop on the partial-failure path of
`igraph_strvector_resize`: `for (j = 0; j < i; j++)` it tests and frees
`v->stor_begin[oldsize + i]` — the body indexes with `i`, not `j`, so every
iteration looks at the same slot `pos = oldsize + i` (the one whose
allocation just failed and was assigned NULL). -/
def resizeCleanupLoop (pos : Nat) : List Slot → Nat → Option (List Slot)
  | l, 0 => some l
  | l, j + 1 =>
    match l[pos]? with
    | some (Slot.live _) => resizeCleanupLoop pos (l.set pos Slot.null) j
    | some Slot.null => resizeCleanupLoop pos l j
    | _ => none

/-- The per-slot loop of the growth branch of `igraph_strvector_resize`:
slot `oldsize + i` receives a fresh empty string; on allocation failure the
NULL result is stored, the (buggy) cleanup loop runs `i` times, and the
failure flag is returned. -/
def resizeInitLoop (failSlot : Option Nat) (oldsize : Nat) :
    List Slot → Nat → Nat → Option (Bool × List Slot)
  | l, _, 0 => some (true, l)
  | l, i, n + 1 =>
    if oldsize + i < l.length then
      if failSlot = some i then
        match resizeCleanupLoop (oldsize + i) (l.set (oldsize + i) Slot.null) i with
        | none => none
        | some l2 => some (false, l2)
      else resizeInitLoop failSlot oldsize (l.set (oldsize + i) (Slot.live emptyBuf)) (i + 1) n
    else none

/-- `igraph_strvector_resize`.  Shrinking frees the dropped slots and moves
`end` back, leaving `stor_end` (and the allocation) alone.  Growing reallocs
the slot array to exactly `newsize`, sets `stor_end` and `end` to
`stor_begin + newsize` before initializing the newly exposed slots, then
fills them with empty strings, or fails partway as described in
`resizeInitLoop`. -/
def igraph_strvector_resize (v : StrVec) (newsize : Nat) (reallocOK : Bool)
    (failSlot : Option Nat) : SVRes :=
  let oldsize := v.len
  if newsize < oldsize then
    match freeN v.stor newsize (oldsize - newsize) with
    | none => SVRes.ub
    | some l => SVRes.ok { v with stor := l, len := newsize }
  else if oldsize < newsize then
    if reallocOK = false then SVRes.err Err.enomem v
    else
      match resizeInitLoop failSlot oldsize
          (v.stor.take newsize ++ List.replicate (newsize - v.stor.length) Slot.uninit)
          0 (newsize - oldsize) with
      | none => SVRes.ub
      | some (true, l) => SVRes.ok { stor := l, cap := newsize, len := newsize }
      | some (false, l) => SVRes.err Err.enomem { stor := l, cap := newsize, len := newsize }
  else SVRes.ok v

/-- `igraph_strvector_add`.  When the vector is full it grows to double the
size via `igraph_strvector_resize` — whose return value the source discards —
then unconditionally stores a fresh copy of `value` at index `old_size` and
sets `end` to `stor_begin + old_size + 1`.  If the growth did not actually
happen, `old_size` is outside the allocation and both the store of the new
pointer and the store of a NULL on allocation failure are heap-overflow
writes (undefined). -/
def igraph_strvector_add (v : StrVec) (value : Buf) (growReallocOK : Bool)
    (growFailSlot : Option Nat) (valueAllocOK : Bool) : SVRes :=
  let old_size := v.len
  let new_size := if old_size < IGRAPH_INTEGER_MAX / 2 then old_size * 2 else IGRAPH_INTEGER_MAX
  if old_size = IGRAPH_INTEGER_MAX then SVRes.err Err.eoverflow v
  else
    let grown : Option StrVec :=
      if v.len = v.cap then
        match igraph_strvector_resize v (if new_size = 0 then 1 else new_size)
            growReallocOK growFailSlot with
        | SVRes.ok w => some w
        | SVRes.err _ w => some w
        | SVRes.ub => none
      else some v
    match grown with
    | none => SVRes.ub
    | some w =>
      if old_size < w.stor.length then
        if valueAllocOK then
          SVRes.ok { w with
            stor := w.stor.set old_size (Slot.live (cstrTake value ++ [0])),
            len := old_size + 1 }
        else SVRes.err Err.enomem { w with stor := w.stor.set old_size Slot.null }
      else SVRes.ub

/-- The copy loop of `igraph_strvector_append`: for each source element with
a non-zero first byte, free the destination slot and `strdup` the source
string into it; on `strdup` failure set the error flag and break.  Reading
`from->stor_begin[i][0]` requires a live, non-empty source buffer. -/
def appendLoop (fromStor : List Slot) (len1 : Nat) (failCopyAt : Option Nat) :
    List Slot → Nat → Nat → Option (Bool × List Slot)
  | l, _, 0 => some (true, l)
  | l, i, n + 1 =>
    match fromStor[i]? with
    | some (Slot.live (c :: rest)) =>
      if c = 0 then appendLoop fromStor len1 failCopyAt l (i + 1) n
      else
        match l[len1 + i]? with
        | some (Slot.live _) =>
          if failCopyAt = some i then some (false, l.set (len1 + i) Slot.null)
          else appendLoop fromStor len1 failCopyAt
            (l.set (len1 + i) (Slot.live (cstrTake (c :: rest) ++ [0]))) (i + 1) n
        | some Slot.null =>
          if failCopyAt = some i then some (false, l.set (len1 + i) Slot.null)
          else appendLoop fromStor len1 failCopyAt
            (l.set (len1 + i) (Slot.live (cstrTake (c :: rest) ++ [0]))) (i + 1) n
        | _ => none
    | _ => none

/-- `igraph_strvector_append`: grow the receiver by `len2` via
`igraph_strvector_resize` (checked with `IGRAPH_CHECK`, so a failure
propagates), copy each non-empty source string into the new tail, and on a
copy failure resize back down to `len1` and raise `ENOMEM`. -/
def igraph_strvector_append (toV fromV : StrVec) (reallocOK : Bool)
    (resizeFailSlot : Option Nat) (failCopyAt : Option Nat) : SVRes :=
  let len1 := igraph_strvector_size toV
  let len2 := igraph_strvector_size fromV
  match igraph_strvector_resize toV (len1 + len2) reallocOK resizeFailSlot with
  | SVRes.ub => SVRes.ub
  | SVRes.err e w => SVRes.err e w
  | SVRes.ok w =>
    match appendLoop fromV.stor len1 failCopyAt w.stor 0 len2 with
    | none => SVRes.ub
    | some (true, l) => SVRes.ok { w with stor := l }
    | some (false, l) =>
      match igraph_strvector_resize { w with stor := l } len1 true none with
      | SVRes.ok w2 => SVRes.err Err.enomem w2
      | SVRes.err _ w2 => SVRes.err Err.enomem w2
      | SVRes.ub => SVRes.ub

/-- The main loop of `igraph_strvector_permdelete`: for ascending `i`, a
zero mapping entry frees slot `i`, a non-zero entry `p` stores slot `i`'s
pointer into slot `p - 1`. -/
def permdeleteLoop (idx : List Nat) : List Slot → Nat → Nat → Option (List Slot)
  | l, _, 0 => some l
  | l, i, n + 1 =>
    match idx[i]?, l[i]? with
    | some p, some s =>
      if p = 0 then
        match s with
        | Slot.live _ => permdeleteLoop idx (l.set i Slot.null) (i + 1) n
        | Slot.null => permdeleteLoop idx l (i + 1) n
        | _ => none
      else
        if p - 1 < l.length then permdeleteLoop idx (l.set (p - 1) s) (i + 1) n
        else none
    | _, _ => none

/-- `igraph_strvector_permdelete`: run the relocation loop, then best-effort
shrink the allocation to `size - nremove` slots (to 1 slot if that is zero;
a failed shrink keeps the old allocation), and decrement both `stor_end` and
`end` by `nremove`. -/
def igraph_strvector_permdelete (v : StrVec) (idx : List Nat) (nremove : Nat)
    (shrinkOK : Bool) : Option StrVec :=
  match permdeleteLoop idx v.stor 0 v.len with
  | none => none
  | some l =>
    let keep := if v.len - nremove = 0 then 1 else v.len - nremove
    some { stor := if shrinkOK then l.take keep else l,
           cap := v.cap - nremove, len := v.len - nremove }

/-! ## Helper predicates and example vectors -/

/-- The slot holds a non-null owned buffer. -/
def slotLive : Slot → Bool
  | Slot.live _ => true
  | _ => false

/-- The slot holds a non-null owned buffer or a NULL pointer. -/
def slotLiveOrNull : Slot → Bool
  | Slot.live _ => true
  | Slot.null => true
  | _ => false

/-- The slot holds a non-null owned buffer of at least one byte (so that
reading its first byte is defined). -/
def slotLiveNE : Slot → Bool
  | Slot.live (_ :: _) => true
  | _ => false

/-- The vector `["a", "b", "c", "d"]` (byte values 97..100). -/
def exABCD : StrVec :=
  ⟨[Slot.live [97, 0], Slot.live [98, 0], Slot.live [99, 0], Slot.live [100, 0]], 4, 4⟩

/-- The vector `["a", "b"]`. -/
def exAB : StrVec := ⟨[Slot.live [97, 0], Slot.live [98, 0]], 2, 2⟩

/-- The vector `["a", "b", "c"]`. -/
def exABC : StrVec := ⟨[Slot.live [97, 0], Slot.live [98, 0], Slot.live [99, 0]], 3, 3⟩

/-- The vector `[""]`, as produced by `igraph_strvector_init 1`. -/
def exE1 : StrVec := ⟨[Slot.live [0]], 1, 1⟩

/-- The vector `["", ""]`, as produced by `igraph_strvector_init 2`. -/
def exE2 : StrVec := ⟨[Slot.live [0], Slot.live [0]], 2, 2⟩

/-- A vector with logical size 3 and capacity 4 whose spare slot 3 holds a
valid empty string; reachable as `add exE2 "x"` (growth doubles the capacity
to 4 and default-fills the new slots before the element is placed). -/
def exSpare : StrVec :=
  ⟨[Slot.live [0], Slot.live [0], Slot.live [120, 0], Slot.live [0]], 4, 3⟩

/-! ## Small facts about the helpers -/

theorem slotLive_getD_live {l : List Slot} {i : Nat} (hi : i < l.length)
    (hb : slotLive (l.getD i Slot.uninit) = true) : ∃ b, l[i]? = some (Slot.live b) := by
  rcases h : l[i]? with _ | s
  · simp [List.getElem?_eq_none_iff] at h; omega
  · rcases s with b | _ | _ | _ <;> simp_all [List.getD_eq_getElem?_getD, slotLive]

theorem slotLiveOrNull_getD {l : List Slot} {i : Nat} (hi : i < l.length)
    (hb : slotLiveOrNull (l.getD i Slot.uninit) = true) :
    l[i]? = some Slot.null ∨ ∃ b, l[i]? = some (Slot.live b) := by
  rcases h : l[i]? with _ | s
  · simp [List.getElem?_eq_none_iff] at h; omega
  · rcases s with b | _ | _ | _ <;> simp_all [List.getD_eq_getElem?_getD, slotLiveOrNull]

theorem slotLiveNE_getD {l : List Slot} {i : Nat} (hi : i < l.length)
    (hb : slotLiveNE (l.getD i Slot.uninit) = true) :
    ∃ c rest, l[i]? = some (Slot.live (c :: rest)) := by
  rcases h : l[i]? with _ | s
  · simp [List.getElem?_eq_none_iff] at h; omega
  · rcases s with b | _ | _ | _ <;> simp_all [List.getD_eq_getElem?_getD, slotLiveNE]
    rcases b with _ | ⟨c, rest⟩
    · simp [slotLiveNE] at hb
    · exact ⟨c, rest, rfl⟩

theorem cstrTake_append_zero : ∀ b : Buf, cstrTake (cstrTake b ++ [0]) = cstrTake b := by
  intro b
  induction b with
  | nil => simp [cstrTake]
  | cons c bs ih =>
    by_cases hc : c = 0
    · simp [cstrTake, hc]
    · simpa [cstrTake, hc] using ih

/-! ## Closed evaluations: bug demonstrations and counterexamples -/

/-- Claim C1: on the vector `[""]` (size 1, capacity 1), `add "y"` with the
growth reallocation succeeding and the value allocation failing returns
`ENOMEM` with the logical size bumped from 1 to 2 (the growth's
`v->end = v->stor_end` is never rolled back) and with the live slot at the
old size holding a NULL pointer — contradicting the claim that a failed
`Add` leaves `Size` unchanged. -/
theorem add_value_alloc_failure_bumps_size :
    igraph_strvector_add exE1 [121] true none false =
      SVRes.err Err.enomem ⟨[Slot.live [0], Slot.null], 2, 2⟩ ∧
    igraph_strvector_size (⟨[Slot.live [0], Slot.null], 2, 2⟩ : StrVec) ≠
      igraph_strvector_size exE1 ∧
    (⟨[Slot.live [0], Slot.null], 2, 2⟩ : StrVec).stor[1]? = some Slot.null := by
  decide

/-- Claim C3: resizing `[""]` from size 1 to size 3 with the allocation of
the second new slot failing returns `ENOMEM`, but the slot initialized
earlier in the same call (index 1) is still allocated — the cleanup loop
indexes with `i` instead of `j` and frees nothing — and the vector is left
with logical size 3 whose live slot 2 is NULL. -/
theorem resize_partial_failure_leaves_null_live_slot :
    igraph_strvector_resize exE1 3 true (some 1) =
      SVRes.err Err.enomem ⟨[Slot.live [0], Slot.live [0], Slot.null], 3, 3⟩ ∧
    (⟨[Slot.live [0], Slot.live [0], Slot.null], 3, 3⟩ : StrVec).stor[1]? =
      some (Slot.live emptyBuf) ∧
    (⟨[Slot.live [0], Slot.live [0], Slot.null], 3, 3⟩ : StrVec).len = 3 := by
  decide

/-- Claim C9: `init 2` on a fresh struct whose indeterminate `end` field
happens to compare equal to the new `stor_begin` (stale offset 0), with the
allocation of slot 1 failing: the premature destroy call walks zero slots,
so the empty string allocated for slot 0 in this same call is never
released — it is still live when the slot array itself is freed. -/
theorem init_partial_failure_leaks_first_slot :
    igraph_strvector_init 2 true (some 1) 0 = InitRes.errSlots [Slot.live [0], Slot.null] ∧
    [Slot.live [0], Slot.null][0]? ≠ some Slot.null := by
  decide

/-- Claim C10: on the full vector `[""]` (size 1 = capacity 1), `add` with
the growth reallocation failing ignores the discarded error and stores the
new element at index `old_size` — one past the end of the still-unchanged
allocation, a heap-overflow write (after which the source would also set
`end = stor_begin + old_size + 1 > stor_end`).  The operation does not
preserve the claimed invariant; its behavior is undefined. -/
theorem add_ignored_growth_failure_is_heap_overflow :
    igraph_strvector_add exE1 [121] false none true = SVRes.ub ∧
    igraph_strvector_add exE1 [121] false none false = SVRes.ub := by
  decide

/-- Claim C2, counterexample: on `["a", "b"]` with mapping `[2, 1]` and
`remove_count = 0` — a valid partial permutation (entries distinct, within
the surviving count) — the claim predicts element 1's string `"b"` is
relocated to index 0, giving `["b", "a"]`.  The code processes entries in
ascending order in place: slot 1 is overwritten with slot 0's pointer before
being read, producing `["a", "a"]` (and leaking `"b"`). -/
theorem permdelete_swap_counterexample :
    igraph_strvector_permdelete exAB [2, 1] 0 true =
      some ⟨[Slot.live [97, 0], Slot.live [97, 0]], 2, 2⟩ ∧
    igraph_strvector_get (⟨[Slot.live [97, 0], Slot.live [97, 0]], 2, 2⟩ : StrVec) 0 ≠
      some [98, 0] := by
  decide

/-- Claim C4, counterexample: `exSpare` is reachable (`init 2` then
`add "x"`, which doubles the capacity to 4 and default-fills the spare
slot), has `Size = 3`, yet `set2` at index 3 — outside `[0, Size)` — does
not fail with OutOfBounds: the source checks the index against
`stor_end - stor_begin` (the capacity, 4), so the call succeeds and
modifies the vector. -/
theorem set2_beyond_size_succeeds_counterexample :
    igraph_strvector_init 2 true none 0 = InitRes.ok exE2 ∧
    igraph_strvector_add exE2 [120] true none true = SVRes.ok exSpare ∧
    igraph_strvector_size exSpare = 3 ∧
    igraph_strvector_set2 exSpare 3 [121] true =
      SVRes.ok ⟨[Slot.live [0], Slot.live [0], Slot.live [120, 0], Slot.live [121, 0]], 4, 3⟩ := by
  decide

/-- Claim C5, counterexample: `MoveInterval(["a","b","c"], begin 0, end 2,
to 1)` has overlapping source `[0, 2)` and destination `[1, 3)`.  The
destination-release pass frees source slot 1 (`"b"`), which is then
overwritten by the copy of slot 0 before it is read; afterwards source slot
1 holds `"a"`, not its original `"b"` — the source range is not intact. -/
theorem move_interval_overlap_counterexample :
    igraph_strvector_move_interval exABC 0 2 1 =
      some ⟨[Slot.live [97, 0], Slot.live [97, 0], Slot.live [97, 0]], 3, 3⟩ ∧
    igraph_strvector_get
      (⟨[Slot.live [97, 0], Slot.live [97, 0], Slot.live [97, 0]], 3, 3⟩ : StrVec) 1 ≠
      some [98, 0] := by
  decide

/-! ## Loop characterizations -/

theorem freeN_spec : ∀ (n a : Nat) (l : List Slot),
    (∀ j, a ≤ j → j < a + n → slotLiveOrNull (l.getD j Slot.uninit) = true) →
    a + n ≤ l.length →
    ∃ l2, freeN l a n = some l2 ∧ l2.length = l.length ∧
      (∀ m, (m < a ∨ a + n ≤ m) → l2[m]? = l[m]?) ∧
      (∀ m, a ≤ m → m < a + n → l2[m]? = some Slot.null) := by
  intro n
  induction n with
  | zero =>
    intro a l _ _
    exact ⟨l, rfl, rfl, fun m _ => rfl, fun m h1 h2 => by omega⟩
  | succ n ih =>
    intro a l hln hlen
    have ha : a < l.length := by omega
    have h0 := hln a (le_refl a) (by omega)
    rcases slotLiveOrNull_getD ha h0 with h | ⟨b, h⟩
    · have hln2 : ∀ j, a + 1 ≤ j → j < a + 1 + n →
          slotLiveOrNull (l.getD j Slot.uninit) = true :=
        fun j h1 h2 => hln j (by omega) (by omega)
      obtain ⟨l2, he, hl, hu, hz⟩ := ih (a + 1) l hln2 (by omega)
      refine ⟨l2, ?_, hl, ?_, ?_⟩
      · simp only [freeN, h]; exact he
      · intro m hm; exact hu m (by omega)
      · intro m h1 h2
        rcases Nat.eq_or_lt_of_le h1 with heq | h1
        · subst heq; rw [hu a (by omega)]; exact h
        · exact hz m (by omega) (by omega)
    · have hln2 : ∀ j, a + 1 ≤ j → j < a + 1 + n →
          slotLiveOrNull ((l.set a Slot.null).getD j Slot.uninit) = true := by
        intro j h1 h2
        rw [List.getD_eq_getElem?_getD, List.getElem?_set_ne (by omega),
          ← List.getD_eq_getElem?_getD]
        exact hln j (by omega) (by omega)
      obtain ⟨l2, he, hl, hu, hz⟩ := ih (a + 1) (l.set a Slot.null) hln2 (by simp; omega)
      refine ⟨l2, ?_, by simp at hl; exact hl, ?_, ?_⟩
      · simp only [freeN, h]; exact he
      · intro m hm
        rw [hu m (by omega), List.getElem?_set_ne (by omega)]
      · intro m h1 h2
        rcases Nat.eq_or_lt_of_le h1 with heq | h1
        · subst heq; rw [hu a (by omega)]
          exact List.getElem?_set_self ha
        · exact hz m (by omega) (by omega)

theorem shiftLoop_spec : ∀ (n k : Nat) (l : List Slot) (frm dst : Nat),
    frm ≤ dst →
    (∀ q, k ≤ q → q < k + n → dst + q < l.length) →
    ∃ l2, shiftLoop frm dst l k n = some l2 ∧ l2.length = l.length ∧
      (∀ m, (∀ q, k ≤ q → q < k + n → m ≠ frm + q) → l2[m]? = l[m]?) ∧
      (∀ q, k ≤ q → q < k + n → l2[frm + q]? = l[dst + q]?) := by
  intro n
  induction n with
  | zero =>
    intro k l frm dst _ _
    exact ⟨l, rfl, rfl, fun m _ => rfl, fun q h1 h2 => by omega⟩
  | succ n ih =>
    intro k l frm dst hfd hrange
    have hd : dst + k < l.length := hrange k (le_refl k) (by omega)
    obtain ⟨s, hs⟩ : ∃ s, l[dst + k]? = some s := ⟨l[dst + k], List.getElem?_eq_getElem hd⟩
    have hw : frm + k < l.length := by omega
    have hrange2 : ∀ q, k + 1 ≤ q → q < k + 1 + n → dst + q < (l.set (frm + k) s).length := by
      intro q h1 h2
      rw [List.length_set]
      exact hrange q (by omega) (by omega)
    obtain ⟨l2, he, hlen2, hun, hsh⟩ := ih (k + 1) (l.set (frm + k) s) frm dst hfd hrange2
    refine ⟨l2, ?_, ?_, ?_, ?_⟩
    · simp only [shiftLoop, hs]
      rw [if_pos hw]
      exact he
    · rw [hlen2, List.length_set]
    · intro m hm
      rw [hun m (fun q h1 h2 => hm q (by omega) (by omega)),
        List.getElem?_set_ne (fun hc => hm k (le_refl k) (by omega) hc.symm)]
    · intro q h1 h2
      rcases Nat.eq_or_lt_of_le h1 with heq | h1
      · subst heq
        rw [hun (frm + k) (fun q h1 h2 => by omega), List.getElem?_set_self hw, hs]
      · rw [hsh q (by omega) (by omega), List.getElem?_set_ne (by omega)]

/-- Claim C7: `RemoveRange(v, from, to)` with `0 ≤ from ≤ to ≤ Size(v)`
frees every slot of `[from, to)`, shifts every slot at index `≥ to` left by
`to − from` positions (slot `from + k` receives the pointer previously at
`to + k`), and decreases the logical size by `to − from`; slots below `from`
are untouched.  Instantiated at `["a","b","c","d"]`, `from = 1`, `to = 3`,
this yields `["a","d"]` (see the witness). -/
theorem remove_section_spec (v : StrVec) (frm dst : Nat)
    (h1 : frm ≤ dst) (h2 : dst ≤ v.len) (h3 : v.len ≤ v.stor.length)
    (hlive : ∀ i, i < v.len → slotLiveOrNull (v.stor.getD i Slot.uninit) = true) :
    ∃ w, igraph_strvector_remove_section v frm dst = some w ∧
      igraph_strvector_size w = v.len - (dst - frm) ∧
      (∀ i, i < frm → w.stor[i]? = v.stor[i]?) ∧
      (∀ k, k < v.len - dst → w.stor[frm + k]? = v.stor[dst + k]?) := by
  obtain ⟨l, hfe, hflen, hfu, hfz⟩ :=
    freeN_spec (dst - frm) frm v.stor
      (fun j hj1 hj2 => hlive j (by omega)) (by omega)
  obtain ⟨l2, hse, hslen, hsu, hsh⟩ :=
    shiftLoop_spec (v.len - dst) 0 l frm dst h1
      (fun q hq1 hq2 => by rw [hflen]; omega)
  refine ⟨{ v with stor := l2, len := v.len - (dst - frm) }, ?_, rfl, ?_, ?_⟩
  · simp only [igraph_strvector_remove_section, hfe, hse]
  · intro i hi
    rw [hsu i (fun q hq1 hq2 => by omega), hfu i (by omega)]
  · intro k hk
    rw [hsh k (by omega) (by omega), hfu (dst + k) (by omega)]

/-- Witness for claim C7: the spec's own example, `["a","b","c","d"]` with
`from = 1`, `to = 3`. -/
theorem remove_section_spec_witness :
    (1 ≤ 3 ∧ 3 ≤ exABCD.len ∧ exABCD.len ≤ exABCD.stor.length ∧
      (∀ i, i < exABCD.len → slotLiveOrNull (exABCD.stor.getD i Slot.uninit) = true)) ∧
    (∃ w, igraph_strvector_remove_section exABCD 1 3 = some w ∧
      igraph_strvector_size w = exABCD.len - (3 - 1) ∧
      (∀ i, i < 1 → w.stor[i]? = exABCD.stor[i]?) ∧
      (∀ k, k < exABCD.len - 3 → w.stor[1 + k]? = exABCD.stor[3 + k]?)) :=
  ⟨by decide, remove_section_spec exABCD 1 3 (by decide) (by decide) (by decide) (by decide)⟩

/-- Claim C8: for any index within `[0, Size)` of a well-formed vector and
any byte sequence `s` — any length, empty or with embedded zero bytes — a
successful `set2(v, idx, s, |s|)` stores the buffer `s ++ [0]`, and `get`
then returns it: its first `|s|` bytes are exactly `s`. -/
theorem set2_get_roundtrip (v : StrVec) (idx : Nat) (s : Buf)
    (hidx : idx < v.len) (hcap : v.len ≤ v.cap) (hstor : v.len ≤ v.stor.length)
    (hslot : slotLiveOrNull (v.stor.getD idx Slot.uninit) = true) :
    ∃ w, igraph_strvector_set2 v idx s true = SVRes.ok w ∧
      igraph_strvector_get w idx = some (s ++ [0]) ∧
      (s ++ [0]).take s.length = s := by
  have hil : idx < v.stor.length := by omega
  have hget : igraph_strvector_get
      { v with stor := v.stor.set idx (Slot.live (s ++ [0])) } idx = some (s ++ [0]) := by
    simp only [igraph_strvector_get, List.getElem?_set_self hil]
  have htake : (s ++ [0]).take s.length = s := List.take_left s [0]
  have hnc : ¬ v.cap ≤ idx := by omega
  rcases slotLiveOrNull_getD hil hslot with h | ⟨b, h⟩
  · refine ⟨_, ?_, hget, htake⟩
    simp only [igraph_strvector_set2]
    rw [if_neg hnc, h]
    simp
  · refine ⟨_, ?_, hget, htake⟩
    simp only [igraph_strvector_set2]
    rw [if_neg hnc, h]
    simp

/-- Witness for claim C8: storing the three bytes `[97, 0, 98]` (embedded
zero) at index 0 of `["", ""]` and reading them back. -/
theorem set2_get_roundtrip_witness :
    (0 < exE2.len ∧ exE2.len ≤ exE2.cap ∧ exE2.len ≤ exE2.stor.length ∧
      slotLiveOrNull (exE2.stor.getD 0 Slot.uninit) = true) ∧
    (∃ w, igraph_strvector_set2 exE2 0 [97, 0, 98] true = SVRes.ok w ∧
      igraph_strvector_get w 0 = some ([97, 0, 98] ++ [0]) ∧
      ([97, 0, 98] ++ [(0 : Nat)]).take 3 = [97, 0, 98]) :=
  ⟨by decide, set2_get_roundtrip exE2 0 [97, 0, 98] (by decide) (by decide) (by decide) (by decide)⟩

/-- Claim C4 (amended): the explicit-length form `set2` raises OutOfBounds
(`EINVAL`) exactly when the index is at or beyond the capacity
(`stor_end - stor_begin`), leaving the vector unmodified; for any index
below the capacity — in particular every index in `[0, Size)` — it never
raises OutOfBounds.  The null-terminated form `set` performs no bounds
check at all and never raises OutOfBounds. -/
theorem set_bounds_check_amended (v : StrVec) (idx : Nat) (s : Buf) (aOK : Bool) :
    (v.cap ≤ idx → igraph_strvector_set2 v idx s aOK = SVRes.err Err.einval v) ∧
    (idx < v.cap → ∀ w, igraph_strvector_set2 v idx s aOK ≠ SVRes.err Err.einval w) ∧
    (∀ w, igraph_strvector_set v idx s aOK ≠ SVRes.err Err.einval w) := by
  refine ⟨fun h => ?_, fun h w => ?_, fun w => ?_⟩
  · simp only [igraph_strvector_set2, if_pos h]
  · simp only [igraph_strvector_set2]
    rw [if_neg (show ¬ v.cap ≤ idx by omega)]
    cases hx : v.stor[idx]? with
    | none => simp
    | some sl => cases sl <;> cases aOK <;> simp
  · simp only [igraph_strvector_set]
    cases hx : v.stor[idx]? with
    | none => simp
    | some sl => cases sl <;> cases aOK <;> simp

/-- Witness for the amended claim C4: on the size-3, capacity-4 vector
`exSpare`, index 5 (beyond the capacity) fails with `EINVAL` and leaves the
vector untouched. -/
theorem set_bounds_check_amended_witness :
    exSpare.cap ≤ 5 ∧
    igraph_strvector_set2 exSpare 5 [121] true = SVRes.err Err.einval exSpare :=
  ⟨by decide, (set_bounds_check_amended exSpare 5 [121] true).1 (by decide)⟩

theorem miCopy_spec : ∀ (n i : Nat) (l : List Slot) (bgn dst : Nat),
    (∀ k, i ≤ k → k < i + n → slotLiveOrNull (l.getD (bgn + k) Slot.uninit) = true) →
    (∀ k, i ≤ k → k < i + n → bgn + k < l.length) →
    (∀ k, i ≤ k → k < i + n → dst + k < l.length) →
    (∀ k q, i ≤ k → k < i + n → i ≤ q → q < i + n → bgn + k ≠ dst + q) →
    ∃ l2, miCopy bgn dst l i n = some l2 ∧ l2.length = l.length ∧
      (∀ m, (∀ k, i ≤ k → k < i + n → m ≠ dst + k) → l2[m]? = l[m]?) := by
  intro n
  induction n with
  | zero =>
    intro i l bgn dst _ _ _ _
    exact ⟨l, rfl, rfl, fun m _ => rfl⟩
  | succ n ih =>
    intro i l bgn dst hslots hbr hdr hdisj
    have hb : bgn + i < l.length := hbr i (le_refl i) (by omega)
    have hd : dst + i < l.length := hdr i (le_refl i) (by omega)
    rcases slotLiveOrNull_getD hb (hslots i (le_refl i) (by omega)) with h | ⟨b, h⟩
    · obtain ⟨l2, he, hl, hu⟩ := ih (i + 1) l bgn dst
        (fun k h1 h2 => hslots k (by omega) (by omega))
        (fun k h1 h2 => hbr k (by omega) (by omega))
        (fun k h1 h2 => hdr k (by omega) (by omega))
        (fun k q h1 h2 h3 h4 => hdisj k q (by omega) (by omega) (by omega) (by omega))
      refine ⟨l2, ?_, hl, ?_⟩
      · simp only [miCopy, h]
        exact he
      · intro m hm
        exact hu m (fun k h1 h2 => hm k (by omega) (by omega))
    · have hsl2 : ∀ k, i + 1 ≤ k → k < i + 1 + n →
          slotLiveOrNull ((l.set (dst + i) (Slot.live (cstrTake b ++ [0]))).getD (bgn + k)
            Slot.uninit) = true := by
        intro k h1 h2
        rw [List.getD_eq_getElem?_getD,
          List.getElem?_set_ne (Ne.symm (hdisj k i (by omega) (by omega) (by omega) (by omega))),
          ← List.getD_eq_getElem?_getD]
        exact hslots k (by omega) (by omega)
      obtain ⟨l2, he, hl, hu⟩ := ih (i + 1) (l.set (dst + i) (Slot.live (cstrTake b ++ [0]))) bgn dst
        hsl2
        (fun k h1 h2 => by rw [List.length_set]; exact hbr k (by omega) (by omega))
        (fun k h1 h2 => by rw [List.length_set]; exact hdr k (by omega) (by omega))
        (fun k q h1 h2 h3 h4 => hdisj k q (by omega) (by omega) (by omega) (by omega))
      refine ⟨l2, ?_, by rw [hl, List.length_set], ?_⟩
      · simp only [miCopy, h]
        rw [if_pos hd]
        exact he
      · intro m hm
        rw [hu m (fun k h1 h2 => hm k (by omega) (by omega)),
          List.getElem?_set_ne (Ne.symm (hm i (le_refl i) (by omega)))]

/-- Claim C5 (amended): after `MoveInterval(v, begin, end, to)` with the
source range `[begin, end)` and the destination range
`[to, to + (end − begin))` disjoint, every slot of the source range still
holds its original string (sources are copied, not moved).  When the two
ranges overlap this fails: the destination-release pass destroys source
slots before they are read (see the counterexample). -/
theorem move_interval_disjoint_source_intact (v : StrVec) (bgn en dst : Nat)
    (h1 : bgn ≤ en) (h2 : en ≤ v.len) (h3 : dst + (en - bgn) ≤ v.len)
    (h4 : v.len ≤ v.stor.length)
    (hlive : ∀ i, i < v.len → slotLiveOrNull (v.stor.getD i Slot.uninit) = true)
    (hdisj : en ≤ dst ∨ dst + (en - bgn) ≤ bgn) :
    ∃ w, igraph_strvector_move_interval v bgn en dst = some w ∧
      ∀ i, bgn ≤ i → i < en → w.stor[i]? = v.stor[i]? := by
  obtain ⟨l, hfe, hflen, hfu, hfz⟩ :=
    freeN_spec (en - bgn) dst v.stor
      (fun j hj1 hj2 => hlive j (by omega)) (by omega)
  have hsl : ∀ k, 0 ≤ k → k < 0 + (en - bgn) →
      slotLiveOrNull (l.getD (bgn + k) Slot.uninit) = true := by
    intro k hk1 hk2
    rw [List.getD_eq_getElem?_getD, hfu (bgn + k) (by omega), ← List.getD_eq_getElem?_getD]
    exact hlive (bgn + k) (by omega)
  obtain ⟨l2, he, hl, hu⟩ := miCopy_spec (en - bgn) 0 l bgn dst hsl
    (fun k hk1 hk2 => by rw [hflen]; omega)
    (fun k hk1 hk2 => by rw [hflen]; omega)
    (fun k q hk1 hk2 hq1 hq2 => by omega)
  refine ⟨{ v with stor := l2 }, ?_, ?_⟩
  · simp only [igraph_strvector_move_interval, hfe, he]
  · intro i hi1 hi2
    rw [hu i (fun k hk1 hk2 => by omega), hfu i (by omega)]

/-- Witness for the amended claim C5: `["a","b","c","d"]`, source `[0, 2)`,
destination `[2, 4)` — disjoint ranges; the source slots keep `"a"`, `"b"`. -/
theorem move_interval_disjoint_witness :
    (0 ≤ 2 ∧ 2 ≤ exABCD.len ∧ 2 + (2 - 0) ≤ exABCD.len ∧
      exABCD.len ≤ exABCD.stor.length ∧ (2 ≤ 2 ∨ (2 : Nat) + (2 - 0) ≤ 0)) ∧
    (∃ w, igraph_strvector_move_interval exABCD 0 2 2 = some w ∧
      ∀ i, 0 ≤ i → i < 2 → w.stor[i]? = exABCD.stor[i]?) :=
  ⟨by decide, move_interval_disjoint_source_intact exABCD 0 2 2 (by decide) (by decide)
    (by decide) (by decide) (by decide) (Or.inl (by decide))⟩

theorem permdeleteLoop_spec : ∀ (n i : Nat) (l : List Slot) (idx : List Nat),
    (∀ j, i ≤ j → j < i + n → ∃ p, idx[j]? = some p) →
    (∀ j, i ≤ j → j < i + n → slotLiveOrNull (l.getD j Slot.uninit) = true) →
    i + n ≤ l.length →
    (∀ j p, idx[j]? = some p → p ≠ 0 → p ≤ j + 1) →
    (∀ (j q : Nat) (p : Nat), j ≠ q → idx[j]? = some p → p ≠ 0 → idx[q]? ≠ some p) →
    ∃ l2, permdeleteLoop idx l i n = some l2 ∧ l2.length = l.length ∧
      (∀ j p, i ≤ j → j < i + n → idx[j]? = some p → p ≠ 0 → l2[p - 1]? = l[j]?) ∧
      (∀ m, (∀ j p, i ≤ j → j < i + n → idx[j]? = some p →
          (p = 0 → m ≠ j) ∧ (p ≠ 0 → m ≠ p - 1)) → l2[m]? = l[m]?) := by
  intro n
  induction n with
  | zero =>
    intro i l idx _ _ _ _ _
    exact ⟨l, rfl, rfl, fun j p h1 h2 => by omega, fun m _ => rfl⟩
  | succ n ih =>
    intro i l idx hentry hslot hrange hleft hdist
    have hi : i < l.length := by omega
    obtain ⟨p, hp⟩ := hentry i (le_refl i) (by omega)
    by_cases hp0 : p = 0
    · subst hp0
      rcases slotLiveOrNull_getD hi (hslot i (le_refl i) (by omega)) with hnull | ⟨b, hlv⟩
      · obtain ⟨l2, he, hl, hc1, hc2⟩ := ih (i + 1) l idx
          (fun j h1 h2 => hentry j (by omega) (by omega))
          (fun j h1 h2 => hslot j (by omega) (by omega))
          (by omega) hleft hdist
        refine ⟨l2, ?_, hl, ?_, ?_⟩
        · simp only [permdeleteLoop, hp, hnull]
          exact he
        · intro j q h1 h2 hj hq
          rcases Nat.eq_or_lt_of_le h1 with heq | h1
          · subst heq
            rw [hp] at hj
            cases hj
            omega
          · exact hc1 j q (by omega) (by omega) hj hq
        · intro m hm
          exact hc2 m (fun j q h1 h2 hj => hm j q (by omega) (by omega) hj)
      · have hslot2 : ∀ j, i + 1 ≤ j → j < i + 1 + n →
            slotLiveOrNull ((l.set i Slot.null).getD j Slot.uninit) = true := by
          intro j h1 h2
          rw [List.getD_eq_getElem?_getD, List.getElem?_set_ne (by omega),
            ← List.getD_eq_getElem?_getD]
          exact hslot j (by omega) (by omega)
        obtain ⟨l2, he, hl, hc1, hc2⟩ := ih (i + 1) (l.set i Slot.null) idx
          (fun j h1 h2 => hentry j (by omega) (by omega)) hslot2
          (by rw [List.length_set]; omega) hleft hdist
        refine ⟨l2, ?_, by rw [hl, List.length_set], ?_, ?_⟩
        · simp only [permdeleteLoop, hp, hlv]
          exact he
        · intro j q h1 h2 hj hq
          rcases Nat.eq_or_lt_of_le h1 with heq | h1
          · subst heq
            rw [hp] at hj
            cases hj
            omega
          · rw [hc1 j q (by omega) (by omega) hj hq, List.getElem?_set_ne (by omega)]
        · intro m hm
          rw [hc2 m (fun j q h1 h2 hj => hm j q (by omega) (by omega) hj),
            List.getElem?_set_ne ?_]
          exact fun hc => ((hm i 0 (le_refl i) (by omega) hp).1 rfl) hc.symm
    · obtain ⟨s, hsv⟩ : ∃ s, l[i]? = some s := ⟨l[i], List.getElem?_eq_getElem hi⟩
      have hpw : p - 1 < l.length := by
        have := hleft i p hp hp0
        omega
      have hslot2 : ∀ j, i + 1 ≤ j → j < i + 1 + n →
          slotLiveOrNull ((l.set (p - 1) s).getD j Slot.uninit) = true := by
        intro j h1 h2
        have := hleft i p hp hp0
        rw [List.getD_eq_getElem?_getD, List.getElem?_set_ne (by omega),
          ← List.getD_eq_getElem?_getD]
        exact hslot j (by omega) (by omega)
      obtain ⟨l2, he, hl, hc1, hc2⟩ := ih (i + 1) (l.set (p - 1) s) idx
        (fun j h1 h2 => hentry j (by omega) (by omega)) hslot2
        (by rw [List.length_set]; omega) hleft hdist
      refine ⟨l2, ?_, by rw [hl, List.length_set], ?_, ?_⟩
      · simp only [permdeleteLoop, hp, hsv]
        rw [if_neg hp0, if_pos hpw]
        exact he
      · intro j q h1 h2 hj hq
        rcases Nat.eq_or_lt_of_le h1 with heq | h1
        · subst heq
          rw [hp] at hj
          cases hj
          rw [hc2 (p - 1) ?_, List.getElem?_set_self hpw, hsv]
          intro j q h1 h2 hjq
          have hpl := hleft i p hp hp0
          refine ⟨fun _ => by omega, fun hq0 hc => ?_⟩
          exact (hdist i j p (by omega) hp hp0) (by rw [hjq]; congr 1; omega)
        · rw [hc1 j q (by omega) (by omega) hj hq]
          have := hleft i p hp hp0
          rw [List.getElem?_set_ne (by omega)]
      · intro m hm
        rw [hc2 m (fun j q h1 h2 hj => hm j q (by omega) (by omega) hj),
          List.getElem?_set_ne ?_]
        exact fun hc => ((hm i p (le_refl i) (by omega) hp).2 hp0) hc.symm

/-- Claim C2 (amended): `PermutationCompact(v, mapping, remove_count)` with
one mapping entry per element behaves as claimed — a zero entry releases
element `i`'s string, a non-zero entry `p` relocates element `i`'s existing
owned pointer to new index `p − 1`, and the logical size drops by
`remove_count` — provided the mapping is a valid partial permutation
(non-zero entries pairwise distinct and within the surviving count) whose
relocations all move leftward or stay (`p − 1 ≤ i`), as in compaction maps.
Without the leftward condition the claim fails (see the counterexample): the
in-place ascending pass can overwrite a source before reading it. -/
theorem permdelete_compaction_spec (v : StrVec) (idx : List Nat) (nrem : Nat)
    (hlen : idx.length = v.len)
    (hstor : v.len ≤ v.stor.length)
    (hlive : ∀ i, i < v.len → slotLiveOrNull (v.stor.getD i Slot.uninit) = true)
    (hmap : ∀ i, i < idx.length → idx.getD i 0 = 0 ∨
        (idx.getD i 0 ≤ i + 1 ∧ idx.getD i 0 ≤ v.len - nrem))
    (hdis : ∀ i, i < idx.length → ∀ j, j < idx.length → i ≠ j → idx.getD i 0 ≠ 0 →
        idx.getD i 0 ≠ idx.getD j 0) :
    ∃ w, igraph_strvector_permdelete v idx nrem true = some w ∧
      igraph_strvector_size w = v.len - nrem ∧
      (∀ i p, i < v.len → idx[i]? = some p → p ≠ 0 → w.stor[p - 1]? = v.stor[i]?) := by
  have hsome : ∀ (j : Nat) (p : Nat), idx[j]? = some p → j < idx.length ∧ idx.getD j 0 = p := by
    intro j p hj
    have hjl : j < idx.length := by
      by_contra hcon
      rw [List.getElem?_eq_none (by omega)] at hj
      cases hj
    exact ⟨hjl, by rw [List.getD_eq_getElem?_getD, hj]; rfl⟩
  have hleft : ∀ (j p : Nat), idx[j]? = some p → p ≠ 0 → p ≤ j + 1 := by
    intro j p hj hp
    obtain ⟨hjl, hg⟩ := hsome j p hj
    rcases hmap j hjl with h0 | ⟨h1, _⟩
    · omega
    · omega
  have hbnd : ∀ (j p : Nat), idx[j]? = some p → p ≠ 0 → p ≤ v.len - nrem := by
    intro j p hj hp
    obtain ⟨hjl, hg⟩ := hsome j p hj
    rcases hmap j hjl with h0 | ⟨_, h2⟩
    · omega
    · omega
  have hdist : ∀ (j q p : Nat), j ≠ q → idx[j]? = some p → p ≠ 0 → idx[q]? ≠ some p := by
    intro j q p hjq hj hp hq
    obtain ⟨hjl, hg⟩ := hsome j p hj
    obtain ⟨hql, hg2⟩ := hsome q p hq
    exact hdis j hjl q hql hjq (by omega) (by omega)
  obtain ⟨l2, he, hl, hc1, _⟩ := permdeleteLoop_spec v.len 0 v.stor idx
    (fun j h1 h2 => ⟨idx.get ⟨j, by omega⟩, List.getElem?_eq_getElem (by omega)⟩)
    (fun j h1 h2 => hlive j (by omega))
    (by omega) hleft hdist
  refine ⟨⟨l2.take (if v.len - nrem = 0 then 1 else v.len - nrem), v.cap - nrem,
      v.len - nrem⟩, ?_, rfl, ?_⟩
  · simp only [igraph_strvector_permdelete, he]
    simp
  · intro i p hi hp hp0
    have hbp := hbnd i p hp hp0
    have hkeep : p - 1 < (if v.len - nrem = 0 then 1 else v.len - nrem) := by
      rcases Nat.eq_zero_or_pos (v.len - nrem) with h0 | h0
      · rw [h0, if_pos rfl]
        omega
      · rw [if_neg (by omega)]
        omega
    show (l2.take (if v.len - nrem = 0 then 1 else v.len - nrem))[p - 1]? = v.stor[i]?
    rw [List.getElem?_take_of_lt hkeep]
    exact hc1 i p (by omega) (by omega) hp hp0

/-- Witness for the amended claim C2: the spec's own example,
`["a","b","c","d"]` with mapping `[1, 0, 2, 0]` and `remove_count = 2`
(element 0 stays at slot 0, element 2 moves to slot 1, elements 1 and 3 are
freed), yielding a 2-element vector with `"a"` and `"c"`. -/
theorem permdelete_compaction_spec_witness :
    ([1, 0, 2, 0].length = exABCD.len ∧ exABCD.len ≤ exABCD.stor.length) ∧
    (∃ w, igraph_strvector_permdelete exABCD [1, 0, 2, 0] 2 true = some w ∧
      igraph_strvector_size w = exABCD.len - 2 ∧
      (∀ i p, i < exABCD.len → [1, 0, 2, 0][i]? = some p → p ≠ 0 →
        w.stor[p - 1]? = exABCD.stor[i]?)) :=
  ⟨by decide, permdelete_compaction_spec exABCD [1, 0, 2, 0] 2 (by decide) (by decide)
    (by decide) (by decide) (by decide)⟩

theorem resizeInitLoop_ok : ∀ (n i : Nat) (l : List Slot) (oldsize : Nat),
    oldsize + i + n ≤ l.length →
    ∃ l2, resizeInitLoop none oldsize l i n = some (true, l2) ∧ l2.length = l.length ∧
      (∀ m, (m < oldsize + i ∨ oldsize + i + n ≤ m) → l2[m]? = l[m]?) ∧
      (∀ k, i ≤ k → k < i + n → l2[oldsize + k]? = some (Slot.live emptyBuf)) := by
  intro n
  induction n with
  | zero =>
    intro i l oldsize _
    exact ⟨l, rfl, rfl, fun m _ => rfl, fun k h1 h2 => by omega⟩
  | succ n ih =>
    intro i l oldsize hrange
    have hw : oldsize + i < l.length := by omega
    obtain ⟨l2, he, hl, hu, hz⟩ := ih (i + 1) (l.set (oldsize + i) (Slot.live emptyBuf)) oldsize
      (by rw [List.length_set]; omega)
    refine ⟨l2, ?_, by rw [hl, List.length_set], ?_, ?_⟩
    · simp only [resizeInitLoop]
      rw [if_pos hw, if_neg (by simp)]
      exact he
    · intro m hm
      rw [hu m (by omega), List.getElem?_set_ne (by omega)]
    · intro k h1 h2
      rcases Nat.eq_or_lt_of_le h1 with heq | h1
      · subst heq
        rw [hu (oldsize + i) (by omega), List.getElem?_set_self hw]
      · exact hz k (by omega) (by omega)

theorem resize_grow_ok (v : StrVec) (newsize : Nat)
    (hgrow : v.len < newsize) (hstor : v.len ≤ v.stor.length) :
    ∃ w, igraph_strvector_resize v newsize true none = SVRes.ok w ∧
      w.len = newsize ∧ w.cap = newsize ∧ w.stor.length = newsize ∧
      (∀ m, m < v.len → w.stor[m]? = v.stor[m]?) ∧
      (∀ k, v.len ≤ k → k < newsize → w.stor[k]? = some (Slot.live emptyBuf)) := by
  have hbase : (v.stor.take newsize ++
      List.replicate (newsize - v.stor.length) Slot.uninit).length = newsize := by
    rw [List.length_append, List.length_take, List.length_replicate]
    omega
  obtain ⟨l2, he, hl, hu, hz⟩ := resizeInitLoop_ok (newsize - v.len) 0
    (v.stor.take newsize ++ List.replicate (newsize - v.stor.length) Slot.uninit) v.len
    (by omega)
  have hpre : ∀ m, m < v.len →
      (v.stor.take newsize ++ List.replicate (newsize - v.stor.length) Slot.uninit)[m]? =
        v.stor[m]? := by
    intro m hm
    rw [List.getElem?_append_left (by rw [List.length_take]; omega),
      List.getElem?_take_of_lt (by omega)]
  refine ⟨⟨l2, newsize, newsize⟩, ?_, rfl, rfl, by rw [hl, hbase], ?_, ?_⟩
  · simp only [igraph_strvector_resize]
    rw [if_neg (by omega), if_pos hgrow, if_neg (by simp)]
    rw [he]
  · intro m hm
    rw [hu m (by omega)]
    exact hpre m hm
  · intro k h1 h2
    have := hz (k - v.len) (by omega) (by omega)
    rwa [show v.len + (k - v.len) = k by omega] at this

theorem appendLoop_ok : ∀ (n i : Nat) (l fromStor : List Slot) (len1 : Nat),
    i + n ≤ fromStor.length →
    (∀ k, i ≤ k → k < i + n → slotLiveNE (fromStor.getD k Slot.uninit) = true) →
    (∀ k, i ≤ k → k < i + n → slotLiveOrNull (l.getD (len1 + k) Slot.uninit) = true) →
    (∀ k, i ≤ k → k < i + n → len1 + k < l.length) →
    ∃ l2, appendLoop fromStor len1 none l i n = some (true, l2) ∧ l2.length = l.length ∧
      (∀ m, (∀ k, i ≤ k → k < i + n → m ≠ len1 + k) → l2[m]? = l[m]?) ∧
      (∀ k, i ≤ k → k < i + n → ∃ b, fromStor[k]? = some (Slot.live b) ∧
        ((cstrTake b = [] ∧ l2[len1 + k]? = l[len1 + k]?) ∨
         (cstrTake b ≠ [] ∧ l2[len1 + k]? = some (Slot.live (cstrTake b ++ [0]))))) := by
  intro n
  induction n with
  | zero =>
    intro i l fromStor len1 _ _ _ _
    exact ⟨l, rfl, rfl, fun m _ => rfl, fun k h1 h2 => by omega⟩
  | succ n ih =>
    intro i l fromStor len1 hfl hsrcs hdsts hrange
    obtain ⟨c, rest, hsrc⟩ :=
      slotLiveNE_getD (show i < fromStor.length by omega) (hsrcs i (le_refl i) (by omega))
    have hwr : len1 + i < l.length := hrange i (le_refl i) (by omega)
    by_cases hc : c = 0
    · obtain ⟨l2, he, hl, hu, hcont⟩ := ih (i + 1) l fromStor len1 (by omega)
        (fun k h1 h2 => hsrcs k (by omega) (by omega))
        (fun k h1 h2 => hdsts k (by omega) (by omega))
        (fun k h1 h2 => hrange k (by omega) (by omega))
      refine ⟨l2, ?_, hl, ?_, ?_⟩
      · simp only [appendLoop, hsrc]
        rw [if_pos hc]
        exact he
      · intro m hm
        exact hu m (fun k h1 h2 => hm k (by omega) (by omega))
      · intro k h1 h2
        rcases Nat.eq_or_lt_of_le h1 with heq | h1
        · subst heq
          refine ⟨c :: rest, hsrc, Or.inl ⟨by simp [cstrTake, hc], ?_⟩⟩
          exact hu (len1 + i) (fun k hk1 hk2 => by omega)
        · exact hcont k (by omega) (by omega)
    · have hdset : ∀ k, i + 1 ≤ k → k < i + 1 + n → slotLiveOrNull
          ((l.set (len1 + i) (Slot.live (cstrTake (c :: rest) ++ [0]))).getD (len1 + k)
            Slot.uninit) = true := by
        intro k h1 h2
        rw [List.getD_eq_getElem?_getD, List.getElem?_set_ne (by omega),
          ← List.getD_eq_getElem?_getD]
        exact hdsts k (by omega) (by omega)
      obtain ⟨l2, he, hl, hu, hcont⟩ := ih (i + 1)
        (l.set (len1 + i) (Slot.live (cstrTake (c :: rest) ++ [0]))) fromStor len1 (by omega)
        (fun k h1 h2 => hsrcs k (by omega) (by omega)) hdset
        (fun k h1 h2 => by rw [List.length_set]; exact hrange k (by omega) (by omega))
      have hequ : appendLoop fromStor len1 none l i (n + 1) = some (true, l2) := by
        simp only [appendLoop, hsrc]
        rw [if_neg hc]
        rcases slotLiveOrNull_getD hwr (hdsts i (le_refl i) (by omega)) with hd | ⟨b0, hd⟩
        · rw [hd]
          simp only [reduceCtorEq, if_neg]
          exact he
        · rw [hd]
          simp only [reduceCtorEq, if_neg]
          exact he
      refine ⟨l2, hequ, by rw [hl, List.length_set], ?_, ?_⟩
      · intro m hm
        rw [hu m (fun k h1 h2 => hm k (by omega) (by omega)),
          List.getElem?_set_ne (fun hcon => hm i (le_refl i) (by omega) hcon.symm)]
      · intro k h1 h2
        rcases Nat.eq_or_lt_of_le h1 with heq | h1
        · subst heq
          refine ⟨c :: rest, hsrc, Or.inr ⟨by simp [cstrTake, hc], ?_⟩⟩
          rw [hu (len1 + i) (fun k hk1 hk2 => by omega), List.getElem?_set_self hwr]
        · obtain ⟨b, hb, hcase⟩ := hcont k (by omega) (by omega)
          refine ⟨b, hb, ?_⟩
          rcases hcase with ⟨hbe, hval⟩ | ⟨hbe, hval⟩
          · exact Or.inl ⟨hbe, by rw [hval, List.getElem?_set_ne (by omega)]⟩
          · exact Or.inr ⟨hbe, hval⟩

theorem appendLoop_fail : ∀ (n i failK : Nat) (l fromStor : List Slot) (len1 : Nat),
    i ≤ failK → failK < i + n →
    i + n ≤ fromStor.length →
    (∀ k, i ≤ k → k < i + n → slotLiveNE (fromStor.getD k Slot.uninit) = true) →
    (∀ k, i ≤ k → k < i + n → slotLiveOrNull (l.getD (len1 + k) Slot.uninit) = true) →
    (∀ k, i ≤ k → k < i + n → len1 + k < l.length) →
    (∀ b, fromStor[failK]? = some (Slot.live b) → cstrTake b ≠ []) →
    ∃ l2, appendLoop fromStor len1 (some failK) l i n = some (false, l2) ∧
      l2.length = l.length ∧
      (∀ m, m < len1 + i → l2[m]? = l[m]?) ∧
      (∀ m, slotLiveOrNull (l.getD m Slot.uninit) = true →
        slotLiveOrNull (l2.getD m Slot.uninit) = true) := by
  intro n
  induction n with
  | zero =>
    intro i failK l fromStor len1 h1 h2 _ _ _ _ _
    omega
  | succ n ih =>
    intro i failK l fromStor len1 hik1 hik2 hfl hsrcs hdsts hrange hne
    obtain ⟨c, rest, hsrc⟩ :=
      slotLiveNE_getD (show i < fromStor.length by omega) (hsrcs i (le_refl i) (by omega))
    have hwr : len1 + i < l.length := hrange i (le_refl i) (by omega)
    rcases Nat.eq_or_lt_of_le hik1 with heq | hik1
    · subst heq
      have hc : c ≠ 0 := by
        intro hc0
        exact hne (c :: rest) hsrc (by simp [cstrTake, hc0])
      have heqn : appendLoop fromStor len1 (some i) l i (n + 1) =
          some (false, l.set (len1 + i) Slot.null) := by
        simp only [appendLoop, hsrc]
        rw [if_neg hc]
        rcases slotLiveOrNull_getD hwr (hdsts i (le_refl i) (by omega)) with hd | ⟨b0, hd⟩
        · rw [hd]
          simp
        · rw [hd]
          simp
      refine ⟨l.set (len1 + i) Slot.null, heqn, List.length_set l _ _, ?_, ?_⟩
      · intro m hm
        rw [List.getElem?_set_ne (by omega)]
      · intro m hm
        by_cases hmi : m = len1 + i
        · subst hmi
          rw [List.getD_eq_getElem?_getD, List.getElem?_set_self hwr]
          rfl
        · rwa [List.getD_eq_getElem?_getD, List.getElem?_set_ne (fun hcon => hmi hcon.symm),
            ← List.getD_eq_getElem?_getD]
    · by_cases hc : c = 0
      · obtain ⟨l2, he, hl, hu, hpres⟩ := ih (i + 1) failK l fromStor len1 (by omega) (by omega)
          (by omega)
          (fun k h1 h2 => hsrcs k (by omega) (by omega))
          (fun k h1 h2 => hdsts k (by omega) (by omega))
          (fun k h1 h2 => hrange k (by omega) (by omega)) hne
        refine ⟨l2, ?_, hl, ?_, hpres⟩
        · simp only [appendLoop, hsrc]
          rw [if_pos hc]
          exact he
        · intro m hm
          exact hu m (by omega)
      · have hdset : ∀ k, i + 1 ≤ k → k < i + 1 + n → slotLiveOrNull
            ((l.set (len1 + i) (Slot.live (cstrTake (c :: rest) ++ [0]))).getD (len1 + k)
              Slot.uninit) = true := by
          intro k h1 h2
          rw [List.getD_eq_getElem?_getD, List.getElem?_set_ne (by omega),
            ← List.getD_eq_getElem?_getD]
          exact hdsts k (by omega) (by omega)
        obtain ⟨l2, he, hl, hu, hpres⟩ := ih (i + 1) failK
          (l.set (len1 + i) (Slot.live (cstrTake (c :: rest) ++ [0]))) fromStor len1
          (by omega) (by omega) (by omega)
          (fun k h1 h2 => hsrcs k (by omega) (by omega)) hdset
          (fun k h1 h2 => by rw [List.length_set]; exact hrange k (by omega) (by omega)) hne
        have heqn : appendLoop fromStor len1 (some failK) l i (n + 1) = some (false, l2) := by
          simp only [appendLoop, hsrc]
          rw [if_neg hc]
          rcases slotLiveOrNull_getD hwr (hdsts i (le_refl i) (by omega)) with hd | ⟨b0, hd⟩
          · rw [hd, if_neg (show ¬ (some failK : Option Nat) = some i by
              simp only [Option.some.injEq]; omega)]
            exact he
          · rw [hd, if_neg (show ¬ (some failK : Option Nat) = some i by
              simp only [Option.some.injEq]; omega)]
            exact he
        refine ⟨l2, heqn, by rw [hl, List.length_set], ?_, ?_⟩
        · intro m hm
          rw [hu m (by omega), List.getElem?_set_ne (by omega)]
        · intro m hm
          apply hpres
          by_cases hmi : m = len1 + i
          · subst hmi
            rw [List.getD_eq_getElem?_getD, List.getElem?_set_self hwr]
            rfl
          · rwa [List.getD_eq_getElem?_getD,
              List.getElem?_set_ne (fun hcon => hmi hcon.symm), ← List.getD_eq_getElem?_getD]

/-- Claim C6: on success, `Append(A, B)` has `Size(A) = old Size(A) +
Size(B)`, the old slots of `A` untouched, and the content of `A` at
`oldSize(A) + i` equal (as a C string) to the content of `B` at `i`; when
the per-element copy of element `k` fails (possible only for a non-empty
source string, since empty sources skip the copy), `A` is truncated back to
its pre-call size with its old slots untouched and `ENOMEM` is surfaced.
`B` is never written to — in this embedding `append` returns only the new
state of `A` and reads `B` untouched. -/
theorem append_spec (toV fromV : StrVec)
    (hstor : toV.len ≤ toV.stor.length)
    (hfstor : fromV.len ≤ fromV.stor.length)
    (hflive : ∀ i, i < fromV.len → slotLiveNE (fromV.stor.getD i Slot.uninit) = true) :
    (∃ w, igraph_strvector_append toV fromV true none none = SVRes.ok w ∧
      igraph_strvector_size w = toV.len + fromV.len ∧
      (∀ j, j < toV.len → w.stor[j]? = toV.stor[j]?) ∧
      (∀ i, i < fromV.len → ∃ b b2, fromV.stor[i]? = some (Slot.live b) ∧
        w.stor[toV.len + i]? = some (Slot.live b2) ∧ cstrTake b2 = cstrTake b)) ∧
    (∀ k, k < fromV.len → (∀ b, fromV.stor[k]? = some (Slot.live b) → cstrTake b ≠ []) →
      ∃ w, igraph_strvector_append toV fromV true none (some k) = SVRes.err Err.enomem w ∧
        igraph_strvector_size w = toV.len ∧
        (∀ j, j < toV.len → w.stor[j]? = toV.stor[j]?)) := by
  constructor
  · by_cases h0 : fromV.len = 0
    · refine ⟨toV, ?_, by simp [igraph_strvector_size, h0], fun j _ => rfl, fun i hi => by omega⟩
      have hres : igraph_strvector_resize toV (toV.len + 0) true none = SVRes.ok toV := by
        simp only [igraph_strvector_resize, Nat.add_zero]
        rw [if_neg (Nat.lt_irrefl _), if_neg (Nat.lt_irrefl _)]
      simp only [igraph_strvector_append, igraph_strvector_size, h0, hres, appendLoop]
    · obtain ⟨w1, he1, hw1len, hw1cap, hw1sl, hw1pre, hw1emp⟩ :=
        resize_grow_ok toV (toV.len + fromV.len) (by omega) hstor
      have hdst0 : ∀ k, 0 ≤ k → k < 0 + fromV.len →
          slotLiveOrNull (w1.stor.getD (toV.len + k) Slot.uninit) = true := by
        intro k _ hk
        rw [List.getD_eq_getElem?_getD, hw1emp (toV.len + k) (by omega) (by omega)]
        rfl
      obtain ⟨l2, he2, hl2, hu2, hcont⟩ := appendLoop_ok fromV.len 0 w1.stor fromV.stor toV.len
        (by omega)
        (fun k h1 h2 => hflive k (by omega)) hdst0
        (fun k h1 h2 => by rw [hw1sl]; omega)
      refine ⟨{ w1 with stor := l2 }, ?_, ?_, ?_, ?_⟩
      · simp only [igraph_strvector_append, igraph_strvector_size, he1, he2]
      · simp only [igraph_strvector_size]
        exact hw1len
      · intro j hj
        have := hu2 j (fun k h1 h2 => by omega)
        simp only at this
        rw [this, hw1pre j hj]
      · intro i hi
        obtain ⟨b, hb, hcase⟩ := hcont i (by omega) (by omega)
        rcases hcase with ⟨hbe, hval⟩ | ⟨hbe, hval⟩
        · refine ⟨b, emptyBuf, hb, ?_, ?_⟩
          · show l2[toV.len + i]? = some (Slot.live emptyBuf)
            rw [hval, hw1emp (toV.len + i) (by omega) (by omega)]
          · rw [hbe]
            rfl
        · exact ⟨b, cstrTake b ++ [0], hb, hval, cstrTake_append_zero b⟩
  · intro k hk hkne
    obtain ⟨w1, he1, hw1len, hw1cap, hw1sl, hw1pre, hw1emp⟩ :=
      resize_grow_ok toV (toV.len + fromV.len) (by omega) hstor
    have hdst0 : ∀ q, 0 ≤ q → q < 0 + fromV.len →
        slotLiveOrNull (w1.stor.getD (toV.len + q) Slot.uninit) = true := by
      intro q _ hq
      rw [List.getD_eq_getElem?_getD, hw1emp (toV.len + q) (by omega) (by omega)]
      rfl
    obtain ⟨l2, he2, hl2, hpre2, hpres2⟩ := appendLoop_fail fromV.len 0 k w1.stor fromV.stor
      toV.len (by omega) (by omega) (by omega)
      (fun q h1 h2 => hflive q (by omega)) hdst0
      (fun q h1 h2 => by rw [hw1sl]; omega) hkne
    obtain ⟨l3, hfe, hflen, hfu, _⟩ :=
      freeN_spec (toV.len + fromV.len - toV.len) toV.len l2
        (by
          intro j hj1 hj2
          apply hpres2
          rw [List.getD_eq_getElem?_getD, hw1emp j (by omega) (by omega)]
          rfl)
        (by rw [hl2, hw1sl]; omega)
    have hres2 : igraph_strvector_resize { w1 with stor := l2 } toV.len true none =
        SVRes.ok ⟨l3, w1.cap, toV.len⟩ := by
      simp only [igraph_strvector_resize]
      rw [if_pos (show toV.len < w1.len by omega)]
      have hw1e : w1.len = toV.len + fromV.len := hw1len
      rw [hw1e, hfe]
    refine ⟨⟨l3, w1.cap, toV.len⟩, ?_, rfl, ?_⟩
    · simp only [igraph_strvector_append, igraph_strvector_size, he1, he2, hres2]
    · intro j hj
      rw [hfu j (by omega), hpre2 j (by omega), hw1pre j hj]

/-- Witness for claim C6: appending `["a","b"]` to `["a","b","c"]`, both the
all-allocations-succeed run and the run in which the copy of element 0
fails. -/
theorem append_spec_witness :
    (exABC.len ≤ exABC.stor.length ∧ exAB.len ≤ exAB.stor.length) ∧
    (∃ w, igraph_strvector_append exABC exAB true none none = SVRes.ok w ∧
      igraph_strvector_size w = exABC.len + exAB.len ∧
      (∀ j, j < exABC.len → w.stor[j]? = exABC.stor[j]?) ∧
      (∀ i, i < exAB.len → ∃ b b2, exAB.stor[i]? = some (Slot.live b) ∧
        w.stor[exABC.len + i]? = some (Slot.live b2) ∧ cstrTake b2 = cstrTake b)) ∧
    (∃ w, igraph_strvector_append exABC exAB true none (some 0) = SVRes.err Err.enomem w ∧
      igraph_strvector_size w = exABC.len ∧
      (∀ j, j < exABC.len → w.stor[j]? = exABC.stor[j]?)) := by
  have h := append_spec exABC exAB (by decide) (by decide) (by decide)
  refine ⟨by decide, h.1, h.2 0 (by decide) ?_⟩
  intro b hb
  have hbe : Slot.live ([97, 0] : Buf) = Slot.live b := Option.some.inj hb
  cases hbe
  decide
